import Mathlib

/-!
Verification of the chunking, section-segmentation, deduplication and
oracle-retry logic of the ev-qa-pipeline repository, as a shallow embedding
in Lean 4.

Modelling conventions:
- Python text is modelled as a list of characters (abbrev Text).
- External libraries are not part of the repository and are modelled at
  their call boundary: the NLTK sentence tokenizer and the regex engine
  results are passed in as parameters or explicit match data; the rapidfuzz
  token-set similarity and the Python regular-expression substitutions of
  clean_text are given executable models that follow the documented
  behaviour of those libraries; json parsing and HTTP responses are
  abstracted as oracles.
- Machine integers do not occur: all counts are Nat; the similarity
  threshold comparison is done in exact integer arithmetic.
-/

namespace EvQa

/-- Text is modelled as a list of characters (Python str). -/
abbrev Text := List Char

/-- Whitespace as recognised by Python str.split / str.strip and the regex
class backslash-s (ASCII subset; all inputs in this development are ASCII). -/
def isWs (c : Char) : Bool :=
  c = ' ' || c = '\t' || c = '\n' || c = '\r' || c = '\x0b' || c = '\x0c'

/-- Python str.strip: remove leading and trailing whitespace. -/
def pyStrip (s : Text) : Text :=
  ((s.dropWhile isWs).reverse.dropWhile isWs).reverse

/-- Python str.lower, restricted to ASCII case mapping. -/
def pyLower (s : Text) : Text := s.map Char.toLower

/-- Accumulator loop for pyWords: cur holds the characters of the word being
read, in reverse. -/
def pyWordsGo : Text → Text → List Text
  | [], cur => if cur.isEmpty then [] else [cur.reverse]
  | c :: cs, cur =>
    if isWs c then
      if cur.isEmpty then pyWordsGo cs [] else cur.reverse :: pyWordsGo cs []
    else pyWordsGo cs (c :: cur)

/-- Python str.split() with no separator: split on whitespace runs,
discarding empty pieces. -/
def pyWords (s : Text) : List Text := pyWordsGo s []

/-- Word count of a text, as Python len(s.split()). -/
def wc (s : Text) : Nat := (pyWords s).length

/-- Python " ".join(l). -/
def joinSpace : List Text → Text
  | [] => []
  | [s] => s
  | s :: t :: rest => s ++ ' ' :: joinSpace (t :: rest)

theorem pyWordsGo_append_ws (b : Text) :
    ∀ (a : Text) (cur : Text),
      pyWordsGo (a ++ ' ' :: b) cur = pyWordsGo a cur ++ pyWords b
  | [], cur => by
    by_cases h : cur.isEmpty <;> simp [pyWordsGo, pyWords, isWs, h]
  | c :: cs, cur => by
    by_cases hw : isWs c
    · by_cases h : cur.isEmpty <;>
        simp [pyWordsGo, hw, h, pyWordsGo_append_ws b cs]
    · simp [pyWordsGo, hw, pyWordsGo_append_ws b cs]

/-- Splitting a space-joined pair splits into the two word lists. -/
theorem pyWords_append_space (a b : Text) :
    pyWords (a ++ ' ' :: b) = pyWords a ++ pyWords b :=
  pyWordsGo_append_ws b a []

/-- Word count of a space-join is the sum of the word counts: joining
sentences with single spaces neither merges nor creates words. -/
theorem wc_joinSpace (l : List Text) : wc (joinSpace l) = (l.map wc).sum := by
  match l with
  | [] => simp [joinSpace, wc, pyWords, pyWordsGo]
  | [s] => simp [joinSpace]
  | s :: t :: rest =>
    have ih := wc_joinSpace (t :: rest)
    calc wc (joinSpace (s :: t :: rest))
        = wc (s ++ ' ' :: joinSpace (t :: rest)) := rfl
      _ = wc s + wc (joinSpace (t :: rest)) := by
            simp [wc, pyWords_append_space]
      _ = wc s + (List.map wc (t :: rest)).sum := by rw [ih]
      _ = (List.map wc (s :: t :: rest)).sum := by simp

/-! ## Sentence-based chunker

src/scrapper2.py, split_section_into_chunks (lines 45-73).  The source
first applies the external NLTK sent_tokenize to the section body; the
embedding takes the resulting sentence list as input and mirrors the
accumulation loop of lines 58-73 exactly. -/

/-- Accumulation loop of split_section_into_chunks: current is the pending
sentence buffer (current_chunk), wcnt the running word count (word_count).
A chunk is emitted as soon as the count reaches max_words; the final
non-empty buffer is flushed after the loop. -/
def splitGo (heading : Text) (maxWords : Nat) :
    List Text → List Text → Nat → List (Text × Text)
  | [], current, _ =>
    if current.isEmpty then [] else [(heading, joinSpace current)]
  | s :: rest, current, wcnt =>
    let current2 := current ++ [s]
    let w := wcnt + wc s
    if maxWords ≤ w then
      (heading, joinSpace current2) :: splitGo heading maxWords rest [] 0
    else splitGo heading maxWords rest current2 w

/-- split_section_into_chunks of src/scrapper2.py, applied to the sentence
list produced by the external tokenizer. -/
def split_section_into_chunks (heading : Text) (sentences : List Text)
    (maxWords : Nat) : List (Text × Text) :=
  splitGo heading maxWords sentences [] 0

/-- Same loop, recording each emitted chunk as its list of sentences
instead of the joined text. -/
def chunkGroupsGo (maxWords : Nat) :
    List Text → List Text → Nat → List (List Text)
  | [], current, _ => if current.isEmpty then [] else [current]
  | s :: rest, current, wcnt =>
    let current2 := current ++ [s]
    let w := wcnt + wc s
    if maxWords ≤ w then current2 :: chunkGroupsGo maxWords rest [] 0
    else chunkGroupsGo maxWords rest current2 w

/-- Sentence groups of the chunks of split_section_into_chunks. -/
def chunkGroups (maxWords : Nat) (sentences : List Text) : List (List Text) :=
  chunkGroupsGo maxWords sentences [] 0

theorem splitGo_eq_groups (heading : Text) (maxWords : Nat) :
    ∀ (sents current : List Text) (wcnt : Nat),
      splitGo heading maxWords sents current wcnt =
        (chunkGroupsGo maxWords sents current wcnt).map
          (fun g => (heading, joinSpace g))
  | [], current, wcnt => by
    by_cases h : current.isEmpty <;> simp [splitGo, chunkGroupsGo, h]
  | s :: rest, current, wcnt => by
    by_cases h : maxWords ≤ wcnt + wc s <;>
      simp [splitGo, chunkGroupsGo, h, splitGo_eq_groups heading maxWords rest]

/-- The emitted chunks are exactly the groups, each joined with spaces and
tagged with the section heading. -/
theorem split_section_into_chunks_eq_groups (heading : Text)
    (sentences : List Text) (maxWords : Nat) :
    split_section_into_chunks heading sentences maxWords =
      (chunkGroups maxWords sentences).map (fun g => (heading, joinSpace g)) :=
  splitGo_eq_groups heading maxWords sentences [] 0

example : split_section_into_chunks "H".toList
    ["A.".toList, "B.".toList, "C.".toList] 2 =
    [("H".toList, "A. B.".toList), ("H".toList, "C.".toList)] := by decide

/-- Every chunk emitted for a section carries the heading of that section. -/
theorem split_section_heading (heading : Text) (sentences : List Text)
    (maxWords : Nat) :
    ∀ c ∈ split_section_into_chunks heading sentences maxWords,
      c.1 = heading := by
  intro c hc
  rw [split_section_into_chunks_eq_groups] at hc
  obtain ⟨g, _, rfl⟩ := List.mem_map.mp hc
  rfl

/-- The sentence groups concatenate to the pending buffer followed by the
remaining input: no sentence is lost, duplicated or reordered. -/
theorem chunkGroupsGo_flatten (maxWords : Nat) :
    ∀ (sents current : List Text) (wcnt : Nat),
      (chunkGroupsGo maxWords sents current wcnt).flatten = current ++ sents
  | [], current, wcnt => by
    by_cases h : current.isEmpty
    · simp [chunkGroupsGo, h, List.isEmpty_iff.mp h]
    · simp [chunkGroupsGo, h]
  | s :: rest, current, wcnt => by
    by_cases h : maxWords ≤ wcnt + wc s <;>
      simp [chunkGroupsGo, h, chunkGroupsGo_flatten maxWords rest]

/-- Losslessness at the top level. -/
theorem chunkGroups_flatten (maxWords : Nat) (sentences : List Text) :
    (chunkGroups maxWords sentences).flatten = sentences :=
  chunkGroupsGo_flatten maxWords sentences [] 0

/-- No emitted group is empty. -/
theorem chunkGroupsGo_ne_nil (maxWords : Nat) :
    ∀ (sents current : List Text) (wcnt : Nat),
      ∀ g ∈ chunkGroupsGo maxWords sents current wcnt, g ≠ []
  | [], current, wcnt => by
    cases current with
    | nil => simp [chunkGroupsGo]
    | cons c cs =>
      intro g hg
      simp only [chunkGroupsGo, List.isEmpty_cons, Bool.false_eq_true,
        if_false, List.mem_singleton] at hg
      subst hg
      simp
  | s :: rest, current, wcnt => by
    by_cases h : maxWords ≤ wcnt + wc s
    · simp only [chunkGroupsGo, h, if_true]
      intro g hg
      rcases List.mem_cons.mp hg with hg | hg
      · subst hg; simp
      · exact chunkGroupsGo_ne_nil maxWords rest [] 0 g hg
    · simp only [chunkGroupsGo, h, if_false]
      exact chunkGroupsGo_ne_nil maxWords rest (current ++ [s]) (wcnt + wc s)

/-- Word-count bound: in every emitted group, the sentences before the last
one sum to at most maxWords - 1.  The running count entering each step is
the word sum of the pending buffer and is below the threshold. -/
theorem chunkGroupsGo_bound (maxWords : Nat) :
    ∀ (sents current : List Text) (wcnt : Nat),
      wcnt = (current.map wc).sum → wcnt ≤ maxWords - 1 →
      ∀ g ∈ chunkGroupsGo maxWords sents current wcnt,
        ∃ gs last, g = gs ++ [last] ∧ (gs.map wc).sum ≤ maxWords - 1
  | [], current, wcnt => by
    intro hw hb
    cases current with
    | nil => simp [chunkGroupsGo]
    | cons c cs =>
      intro g hg
      simp only [chunkGroupsGo, List.isEmpty_cons, Bool.false_eq_true,
        if_false, List.mem_singleton] at hg
      subst hg
      have hne : c :: cs ≠ [] := by simp
      refine ⟨(c :: cs).dropLast, (c :: cs).getLast hne,
        (List.dropLast_append_getLast hne).symm, ?_⟩
      have hsum : (((c :: cs).dropLast ++ [(c :: cs).getLast hne]).map wc).sum
          = ((c :: cs).map wc).sum := by
        rw [List.dropLast_append_getLast hne]
      simp only [List.map_append, List.sum_append, List.map_cons, List.map_nil,
        List.sum_cons, List.sum_nil] at hsum
      simp only [List.map_cons, List.sum_cons] at hw
      omega
  | s :: rest, current, wcnt => by
    intro hw hb
    by_cases h : maxWords ≤ wcnt + wc s
    · simp only [chunkGroupsGo, h, if_true]
      intro g hg
      rcases List.mem_cons.mp hg with hg | hg
      · subst hg
        exact ⟨current, s, rfl, by omega⟩
      · exact chunkGroupsGo_bound maxWords rest [] 0 rfl (by omega) g hg
    · simp only [chunkGroupsGo, h, if_false]
      refine chunkGroupsGo_bound maxWords rest (current ++ [s]) (wcnt + wc s)
        ?_ ?_
      · simp [hw]
      · omega

/-- Threshold lower bound: every group except possibly the last was emitted
because the running count reached maxWords. -/
theorem chunkGroupsGo_ge (maxWords : Nat) :
    ∀ (sents current : List Text) (wcnt : Nat),
      wcnt = (current.map wc).sum →
      ∀ g ∈ (chunkGroupsGo maxWords sents current wcnt).dropLast,
        maxWords ≤ (g.map wc).sum
  | [], current, wcnt => by
    intro hw
    by_cases h : current.isEmpty <;> simp [chunkGroupsGo, h]
  | s :: rest, current, wcnt => by
    intro hw
    by_cases h : maxWords ≤ wcnt + wc s
    · simp only [chunkGroupsGo, h, if_true]
      intro g hg
      rcases hrest : chunkGroupsGo maxWords rest [] 0 with _ | ⟨r, rs⟩
      · rw [hrest] at hg; simp at hg
      · rw [hrest, List.dropLast_cons_of_ne_nil (by simp)] at hg
        rcases List.mem_cons.mp hg with hg | hg
        · subst hg
          simp only [List.map_append, List.sum_append, List.map_cons,
            List.map_nil, List.sum_cons, List.sum_nil]
          omega
        · have := chunkGroupsGo_ge maxWords rest [] 0 rfl g
          rw [hrest] at this
          exact this hg
    · simp only [chunkGroupsGo, h, if_false]
      exact chunkGroupsGo_ge maxWords rest (current ++ [s]) (wcnt + wc s)
        (by simp [hw])

/-! ## Text normalizer

clean_text of src/scrapper2.py (lines 27-42): five successive re.sub
passes (URLs, HTML tags, citation markers, figure and table captions,
whitespace runs) followed by str.strip.  Each substitution is modelled as
a left-to-right, non-overlapping scan; the matcher of each pattern is an
executable model of the corresponding regular expression.  The copy of
clean_text in src/data_preprocessing.py differs only in the
encoding-mangled dash inside the citation pattern, which no input in this
development exercises. -/

/-- Remove the pattern characters from the head of the text, or fail. -/
def stripPfxT : Text → Text → Option Text
  | [], l => some l
  | _, [] => none
  | p :: ps, c :: cs => if c = p then stripPfxT ps cs else none

/-- Matcher of a URL at the head of the text.  Since the literal part
after the optional letter s starts with a colon, greedy matching of the
optional letter with backtracking is the same as consuming it when
present.  The tail of the URL is a non-empty run of non-whitespace. -/
def mUrl (l : Text) : Option (Text × Text) := do
  let r1 ← stripPfxT "http".toList l
  let r2 := match r1 with
    | 's' :: t => t
    | _ => r1
  let r3 ← stripPfxT "://".toList r2
  if (r3.takeWhile (fun c => !isWs c)).isEmpty then none
  else some ([], r3.dropWhile (fun c => !isWs c))

/-- Matcher of an HTML tag: an opening angle bracket, a non-empty run of
characters other than the closing bracket, then the closing bracket. -/
def mTag (l : Text) : Option (Text × Text) :=
  match l with
  | '<' :: rest =>
    if (rest.takeWhile (fun c => c != '>')).isEmpty then none
    else match rest.dropWhile (fun c => c != '>') with
      | '>' :: r2 => some ([], r2)
      | _ => none
  | _ => none

/-- Matcher of a citation marker: digits, optionally a dash and more
digits, inside square brackets. -/
def mCite (l : Text) : Option (Text × Text) :=
  match l with
  | '[' :: rest =>
    if (rest.takeWhile Char.isDigit).isEmpty then none
    else match rest.dropWhile Char.isDigit with
      | ']' :: r2 => some ([], r2)
      | '–' :: r2 =>
        if (r2.takeWhile Char.isDigit).isEmpty then none
        else match r2.dropWhile Char.isDigit with
          | ']' :: r4 => some ([], r4)
          | _ => none
      | _ => none
  | _ => none

/-- Matcher of a figure or table caption: the word Figure or Table, a
space, digits, then everything up to the next period or newline. -/
def mFig (l : Text) : Option (Text × Text) := do
  let r1 ←
    match stripPfxT "Figure ".toList l with
    | some r => some r
    | none => stripPfxT "Table ".toList l
  if (r1.takeWhile Char.isDigit).isEmpty then none
  else
    let r2 := r1.dropWhile Char.isDigit
    some ([], r2.dropWhile (fun c => c != '.' && c != '\n'))

/-- Matcher of a whitespace run, replaced by a single space. -/
def mWs (l : Text) : Option (Text × Text) :=
  if (l.takeWhile isWs).isEmpty then none
  else some ([' '], l.dropWhile isWs)

/-- Left-to-right, non-overlapping substitution as performed by re.sub:
at each position try the matcher; on a match emit the replacement and
resume after the matched span, otherwise keep the character and move on.
The fuel starts at the length of the text, which suffices because every
matcher above consumes at least one character. -/
def reSubGo (m : Text → Option (Text × Text)) : Nat → Text → Text
  | 0, l => l
  | _ + 1, [] => []
  | fuel + 1, c :: cs =>
    match m (c :: cs) with
    | some (rep, rest) => rep ++ reSubGo m fuel rest
    | none => c :: reSubGo m fuel cs

/-- One re.sub pass over a text. -/
def reSub (m : Text → Option (Text × Text)) (l : Text) : Text :=
  reSubGo m l.length l

/-- clean_text of src/scrapper2.py. -/
def clean_text (t : Text) : Text :=
  pyStrip (reSub mWs (reSub mFig (reSub mCite (reSub mTag (reSub mUrl t)))))

example : clean_text "see http://x.com  now [12] ok".toList
    = "see now ok".toList := by decide

example : clean_text "a <b>bold</b> word".toList = "a bold word".toList := by
  decide

/-! ## Fixed-window segmenter

split_by_sections of src/data_preprocessing.py (lines 12-29).  The source
applies re.split with a single capturing group to the document; on the
output list, element 0 is the text before the first heading match and the
following elements alternate between captured headings and bodies (the
list always has odd length).  The embedding represents that output as the
leading piece pre together with the list of (heading, body) pairs, and
mirrors the loop over range(1, len, 2).  For max_words below 2 the Python
stride max_words // 2 is zero and range raises ValueError; the model is
only used with larger values. -/

/-- Python range(0, n, step) for positive step. -/
def windowStarts (step n : Nat) : List Nat :=
  (List.range ((n + step - 1) / step)).map (· * step)

/-- Overlapping fixed-size word windows with stride maxWords / 2. -/
def hybridWindows (words : List Text) (maxWords : Nat) : List Text :=
  (windowStarts (maxWords / 2) words.length).map
    (fun j => joinSpace ((words.drop j).take maxWords))

/-- split_by_sections of src/data_preprocessing.py. -/
def split_by_sections (pre : Text) (secs : List (Text × Text))
    (maxWords : Nat) : List (Text × Text) :=
  secs.flatMap (fun hb =>
    let heading := pyStrip hb.1
    let body := clean_text hb.2
    let words := pyWords body
    if maxWords < words.length then
      (hybridWindows words maxWords).map (fun w => (heading, w))
    else [(heading, body)])

/-! ## Pattern-based PDF segmenter

split_pdf_with_nlp of src/scrapper2.py (lines 100-117).  The heading
regular expression itself runs in the external re library; the embedding
takes the list of matches it returned on the cleaned text, each with its
start and end offsets and its first capture group, and mirrors the index
arithmetic of lines 105-117. -/

/-- One match of re.finditer: span offsets into the subject text and the
text of the first capture group. -/
structure ReMatch where
  mstart : Nat
  mend : Nat
  group1 : Text
deriving DecidableEq

/-- Python slice text[s:e]. -/
def pySlice (s e : Nat) (t : Text) : Text := (t.take e).drop s

/-- Headings and stripped bodies of the matched sections: section i runs
from the end of match i to the start of match i+1, the last one to the end
of the text. -/
def pdfSections (text : Text) : List ReMatch → List (Text × Text)
  | [] => []
  | [m] => [(pyStrip m.group1, pyStrip (pySlice m.mend text.length text))]
  | m :: m2 :: rest =>
    (pyStrip m.group1, pyStrip (pySlice m.mend m2.mstart text)) ::
      pdfSections text (m2 :: rest)

/-- Lines 103-117 of split_pdf_with_nlp, given the cleaned text and the
match list: with no match the whole text becomes the Generic section,
otherwise each matched section is chunked under its heading. -/
def split_pdf_matched (tok : Text → List Text) (text : Text)
    (ms : List ReMatch) (maxWords : Nat) : List (Text × Text) :=
  match ms with
  | [] => split_section_into_chunks "Generic".toList (tok text) maxWords
  | _ :: _ =>
    (pdfSections text ms).flatMap
      (fun hb => split_section_into_chunks hb.1 (tok hb.2) maxWords)

/-- split_pdf_with_nlp of src/scrapper2.py: normalize, then segment along
the matches the external regex engine found on the cleaned text. -/
def split_pdf_with_nlp (tok : Text → List Text) (raw : Text)
    (ms : List ReMatch) (maxWords : Nat) : List (Text × Text) :=
  split_pdf_matched tok (clean_text raw) ms maxWords

/-! ## Token-set similarity

src/cleaning_pairs.py calls fuzz.token_set_ratio of the external rapidfuzz
library.  The model below follows the documented algorithm of that library: the
two questions are split into sorted sets of words; the candidate strings
are the joined intersection, the intersection followed by the words only
in the first, and the intersection followed by the words only in the
second; the score is the maximum of the three pairwise normalized indel
similarities on the 0-100 scale. -/

/-- One row update of the longest-common-subsequence table: cur is the
value to the left in the new row, the second argument the previous row
from the diagonal cell on. -/
def lcsStepGo (y : Char) : Text → List Nat → Nat → List Nat
  | [], _, _ => []
  | x :: xs, p0 :: p1 :: ps, cur =>
    let v := if x = y then p0 + 1 else max cur p1
    v :: lcsStepGo y xs (p1 :: ps) v
  | _ :: _, _, _ => []

/-- Next full row of the table. -/
def lcsRowStep (xs : Text) (prev : List Nat) (y : Char) : List Nat :=
  0 :: lcsStepGo y xs prev 0

/-- Length of a longest common subsequence, by row-wise dynamic
programming. -/
def lcsLen (xs ys : Text) : Nat :=
  (ys.foldl (lcsRowStep xs) (List.replicate (xs.length + 1) 0)).getLastD 0

/-- Indel distance: edit distance with insertions and deletions only. -/
def indelDist (a b : Text) : Nat := a.length + b.length - 2 * lcsLen a b

/-- Threshold comparison of the normalized indel similarity: decides
100 * (s - d) / s ≥ t by integer cross-multiplication (s is the summed
length, d the indel distance; two empty strings count as similarity 100).
The library computes the similarity as a float and the source only ever
compares it with the threshold, so the comparison itself is modelled. -/
def indelGe (t : Nat) (a b : Text) : Bool :=
  let s := a.length + b.length
  s = 0 || t * s ≤ 100 * (s - indelDist a b)

/-- Distinct elements of a word list, first occurrences kept. -/
def dedupTexts : List Text → List Text → List Text
  | _, [] => []
  | seen, x :: xs =>
    if x ∈ seen then dedupTexts seen xs else x :: dedupTexts (x :: seen) xs

/-- Lexicographic comparison by code points, as Python sorted on a list of
strings. -/
def lexLe : Text → Text → Bool
  | [], _ => true
  | _ :: _, [] => false
  | a :: as, b :: bs => if a = b then lexLe as bs else decide (a < b)

/-- Insertion into a sorted list of words. -/
def insSorted (x : Text) : List Text → List Text
  | [] => [x]
  | y :: ys => if lexLe x y then x :: y :: ys else y :: insSorted x ys

/-- Insertion sort of a word list. -/
def sortTexts (l : List Text) : List Text := l.foldr insSorted []

/-- Sorted set of the whitespace-separated tokens of a text. -/
def sortedTokenSet (s : Text) : List Text := sortTexts (dedupTexts [] (pyWords s))

/-- Model of the comparison fuzz.token_set_ratio(s1, s2) ≥ t, following
the algorithm of the library: the maximum of the three pairwise similarities
reaches the threshold exactly when one of them does.  Since the tokens
are single words, joining the intersection and a difference list directly
equals joining them with an extra separating space and stripping. -/
def tokenSetGe (t : Nat) (s1 s2 : Text) : Bool :=
  let ta := sortedTokenSet s1
  let tb := sortedTokenSet s2
  let sect := ta.filter (fun w => decide (w ∈ tb))
  let dab := ta.filter (fun w => decide (w ∉ tb))
  let dba := tb.filter (fun w => decide (w ∉ ta))
  let t0 := joinSpace sect
  let t1 := joinSpace (sect ++ dab)
  let t2 := joinSpace (sect ++ dba)
  indelGe t t0 t1 || indelGe t t0 t2 || indelGe t t1 t2

/-- is_fuzzy_duplicate of src/cleaning_pairs.py (lines 31-43) at the
configured threshold: PARAMS fuzzy_match_threshold is 90 in
src/config.py. -/
def is_fuzzy_duplicate (q1 q2 : Text) : Bool :=
  tokenSetGe 90 (pyLower q1) (pyLower q2)

example : is_fuzzy_duplicate "a b".toList "B a".toList = true := by decide

example : is_fuzzy_duplicate "a b".toList "c d".toList = false := by decide

/-! ## Deduplicator

deduplicate of src/cleaning_pairs.py (lines 45-75).  A record is a row of
the QA csv; the fuzzy comparison is a parameter, instantiated with
is_fuzzy_duplicate above.  Note the order of operations in the source: the
exact key is added to seen_exact as soon as it is found new, before the
fuzzy check decides whether the record is accepted. -/

/-- One row of the QA table, with all expected fields present. -/
structure QARecord where
  chunkIdx : Nat
  question : Text
  answer : Text
deriving DecidableEq

/-- Exact key of a record: lowercased stripped question and answer. -/
def exactKey (r : QARecord) : Text × Text :=
  (pyLower (pyStrip r.question), pyLower (pyStrip r.answer))

/-- Loop state of deduplicate: seen_exact and unique_pairs. -/
structure DedupState where
  seen : List (Text × Text)
  out : List QARecord
deriving DecidableEq

/-- What the loop body did with one record. -/
inductive DropReason
  | accepted
  | droppedExact
  | droppedFuzzy
deriving DecidableEq

/-- Loop body of deduplicate for one record, also reporting which branch
was taken: the key (exactKey r, built from the stripped fields as in lines
59-62) is looked up in seen_exact and, when new, registered before the
fuzzy comparison against the accepted records runs; the fuzzy comparison
receives the stripped question of the current record and the raw stored
question of each accepted one, as in line 69. -/
def dedupStep (fuzzy : Text → Text → Bool) (s : DedupState) (r : QARecord) :
    DedupState × DropReason :=
  if exactKey r ∈ s.seen then (s, .droppedExact)
  else if s.out.any (fun other => fuzzy (pyStrip r.question) other.question) then
    (⟨exactKey r :: s.seen, s.out⟩, .droppedFuzzy)
  else (⟨exactKey r :: s.seen, s.out ++ [r]⟩, .accepted)

/-- The loop of deduplicate from an arbitrary state. -/
def dedupFold (fuzzy : Text → Text → Bool) (pairs : List QARecord)
    (s : DedupState) : DedupState :=
  pairs.foldl (fun st r => (dedupStep fuzzy st r).1) s

/-- deduplicate of src/cleaning_pairs.py. -/
def deduplicate (fuzzy : Text → Text → Bool) (pairs : List QARecord) :
    List QARecord :=
  (dedupFold fuzzy pairs ⟨[], []⟩).out

/-- Branch taken for each record in input order, starting from state s. -/
def dedupReasonsGo (fuzzy : Text → Text → Bool) (s : DedupState) :
    List QARecord → List DropReason
  | [] => []
  | r :: rest =>
    (dedupStep fuzzy s r).2 :: dedupReasonsGo fuzzy (dedupStep fuzzy s r).1 rest

/-- Branch taken for each record of a run of deduplicate. -/
def dedupReasons (fuzzy : Text → Text → Bool) (pairs : List QARecord) :
    List DropReason :=
  dedupReasonsGo fuzzy ⟨[], []⟩ pairs

/-! ## Deduplicator over raw dict rows

The records read by csv.DictReader are Python dicts; a row missing the
Question or Answer field makes current["Question"] raise KeyError (a short
csv row leaves the value None, on which .strip() raises as well).  The
variant below models the same loop with fallible field access. -/

/-- One row of the QA table as a dict: a field may be absent. -/
structure QADict where
  chunkIdx : Nat
  question : Option Text
  answer : Option Text
deriving DecidableEq

/-- Python dict access: KeyError when the field is absent. -/
def getField : Option Text → Except Unit Text
  | some s => .ok s
  | none => .error ()

/-- The any(...) generator of the fuzzy check, reading the Question field
of each accepted record. -/
def anyFuzzyDict (fuzzy : Text → Text → Bool) (q : Text) :
    List QADict → Except Unit Bool
  | [] => .ok false
  | o :: os => do
    let oq ← getField o.question
    if fuzzy q oq then .ok true else anyFuzzyDict fuzzy q os

/-- Loop of deduplicate over dict rows with fallible field access. -/
def dedupDictGo (fuzzy : Text → Text → Bool) (seen : List (Text × Text))
    (out : List QADict) : List QADict → Except Unit (List QADict)
  | [] => .ok out
  | r :: rest => do
    let qr ← getField r.question
    let ar ← getField r.answer
    let q := pyStrip qr
    let key := (pyLower q, pyLower (pyStrip ar))
    if key ∈ seen then dedupDictGo fuzzy seen out rest
    else do
      let isDup ← anyFuzzyDict fuzzy q out
      if isDup then dedupDictGo fuzzy (key :: seen) out rest
      else dedupDictGo fuzzy (key :: seen) (out ++ [r]) rest

/-- deduplicate applied to raw dict rows. -/
def deduplicateDict (fuzzy : Text → Text → Bool) (pairs : List QADict) :
    Except Unit (List QADict) :=
  dedupDictGo fuzzy [] [] pairs

/-! ## Properties of the deduplicator -/

theorem dedupFold_cons (fuzzy : Text → Text → Bool) (s : DedupState)
    (r : QARecord) (rest : List QARecord) :
    dedupFold fuzzy (r :: rest) s = dedupFold fuzzy rest (dedupStep fuzzy s r).1 :=
  rfl

/-- Membership in seen_exact after one loop body: the key of the processed
record is present afterwards whatever branch was taken. -/
theorem dedupStep_seen_mem (fuzzy : Text → Text → Bool) (s : DedupState)
    (r : QARecord) (k : Text × Text) :
    k ∈ ((dedupStep fuzzy s r).1).seen ↔ (k = exactKey r ∨ k ∈ s.seen) := by
  by_cases hk : exactKey r ∈ s.seen
  · simp only [dedupStep, if_pos hk]
    constructor
    · exact Or.inr
    · rintro (rfl | h)
      · exact hk
      · exact h
  · by_cases hf : s.out.any (fun other => fuzzy (pyStrip r.question) other.question)
    · simp [dedupStep, hk, hf]
    · simp [dedupStep, hk, hf]

/-- After the whole loop, seen_exact holds exactly the keys of all
processed records together with the initial contents: registration is not
limited to accepted records. -/
theorem dedupFold_seen_mem (fuzzy : Text → Text → Bool) :
    ∀ (pairs : List QARecord) (s : DedupState) (k : Text × Text),
      k ∈ (dedupFold fuzzy pairs s).seen ↔
        (k ∈ pairs.map exactKey ∨ k ∈ s.seen)
  | [], s, k => by simp [dedupFold]
  | r :: rest, s, k => by
    rw [dedupFold_cons, dedupFold_seen_mem fuzzy rest, dedupStep_seen_mem]
    simp only [List.map_cons, List.mem_cons]
    tauto

/-- The accepted list only ever grows at the back. -/
theorem dedupFold_out_extend (fuzzy : Text → Text → Bool) :
    ∀ (pairs : List QARecord) (s : DedupState),
      ∃ t, (dedupFold fuzzy pairs s).out = s.out ++ t
  | [], s => ⟨[], by simp [dedupFold]⟩
  | r :: rest, s => by
    obtain ⟨t, ht⟩ := dedupFold_out_extend fuzzy rest (dedupStep fuzzy s r).1
    rw [dedupFold_cons]
    by_cases hk : exactKey r ∈ s.seen
    · exact ⟨t, by rw [ht]; simp [dedupStep, hk]⟩
    · by_cases hf : s.out.any (fun other => fuzzy (pyStrip r.question) other.question)
      · exact ⟨t, by rw [ht]; simp [dedupStep, hk, hf]⟩
      · exact ⟨[r] ++ t, by rw [ht]; simp [dedupStep, hk, hf]⟩

theorem dedupReasonsGo_length (fuzzy : Text → Text → Bool) :
    ∀ (pairs : List QARecord) (s : DedupState),
      (dedupReasonsGo fuzzy s pairs).length = pairs.length
  | [], _ => rfl
  | r :: rest, s => by
    simp [dedupReasonsGo, dedupReasonsGo_length fuzzy rest]

/-- Characterization of the exact-duplicate drop: record j is dropped by
the exact check precisely when its key is already in the initial seen set
or some earlier record of the input, of any fate, has the same key. -/
theorem dedupReasonsGo_exact_iff (fuzzy : Text → Text → Bool) (d : QARecord) :
    ∀ (pairs : List QARecord) (s : DedupState) (j : Nat), j < pairs.length →
      ((dedupReasonsGo fuzzy s pairs).getD j .accepted = .droppedExact ↔
        (exactKey (pairs.getD j d) ∈ s.seen ∨
          ∃ i, i < j ∧ exactKey (pairs.getD i d) = exactKey (pairs.getD j d)))
  | [], s, j => by intro hj; simp at hj
  | r :: rest, s, j => by
    intro hj
    cases j with
    | zero =>
      simp only [dedupReasonsGo, List.getD_cons_zero]
      constructor
      · intro h
        by_cases hk : exactKey r ∈ s.seen
        · exact Or.inl hk
        · by_cases hf :
              s.out.any (fun other => fuzzy (pyStrip r.question) other.question) <;>
            simp [dedupStep, hk, hf] at h
      · rintro (hk | ⟨i, hi, hkey⟩)
        · simp [dedupStep, hk]
        · omega
    | succ j2 =>
      have hlen : j2 < rest.length := by
        simpa using Nat.lt_of_succ_lt_succ hj
      simp only [dedupReasonsGo, List.getD_cons_succ]
      rw [dedupReasonsGo_exact_iff fuzzy d rest (dedupStep fuzzy s r).1 j2 hlen,
        dedupStep_seen_mem]
      constructor
      · rintro ((hke | hks) | ⟨i, hi, hkey⟩)
        · exact Or.inr ⟨0, Nat.succ_pos j2, by simpa using hke.symm⟩
        · exact Or.inl hks
        · exact Or.inr ⟨i + 1, by omega, by simpa using hkey⟩
      · rintro (hks | ⟨i, hi, hkey⟩)
        · exact Or.inl (Or.inr hks)
        · cases i with
          | zero => exact Or.inl (Or.inl (by simpa using hkey.symm))
          | succ i2 => exact Or.inr ⟨i2, by omega, by simpa using hkey⟩

/-- A record whose loop body accepted it ends up in the output. -/
theorem dedupReasonsGo_accepted_mem (fuzzy : Text → Text → Bool) (d : QARecord) :
    ∀ (pairs : List QARecord) (s : DedupState) (j : Nat), j < pairs.length →
      (dedupReasonsGo fuzzy s pairs).getD j .accepted = .accepted →
      pairs.getD j d ∈ (dedupFold fuzzy pairs s).out
  | [], s, j => by intro hj; simp at hj
  | r :: rest, s, j => by
    intro hj hacc
    cases j with
    | zero =>
      by_cases hk : exactKey r ∈ s.seen
      · simp [dedupReasonsGo, dedupStep, hk] at hacc
      · by_cases hf :
            s.out.any (fun other => fuzzy (pyStrip r.question) other.question)
        · simp [dedupReasonsGo, dedupStep, hk, hf] at hacc
        · obtain ⟨t, ht⟩ := dedupFold_out_extend fuzzy rest (dedupStep fuzzy s r).1
          rw [dedupFold_cons, ht]
          simp [dedupStep, hk, hf]
    | succ j2 =>
      have hlen : j2 < rest.length := by
        simpa using Nat.lt_of_succ_lt_succ hj
      rw [dedupFold_cons]
      simp only [List.getD_cons_succ]
      refine dedupReasonsGo_accepted_mem fuzzy d rest _ j2 hlen ?_
      simpa [dedupReasonsGo] using hacc

/-- Invariant for idempotence: when replaying the accepted list of a
reachable state through deduplicate accepts everything, the same holds
after processing any further input. -/
theorem dedupFold_self (fuzzy : Text → Text → Bool) :
    ∀ (pairs : List QARecord) (s : DedupState),
      (dedupFold fuzzy s.out ⟨[], []⟩ = ⟨(s.out.map exactKey).reverse, s.out⟩ ∧
        ∀ k ∈ s.out.map exactKey, k ∈ s.seen) →
      (dedupFold fuzzy (dedupFold fuzzy pairs s).out ⟨[], []⟩ =
          ⟨((dedupFold fuzzy pairs s).out.map exactKey).reverse,
            (dedupFold fuzzy pairs s).out⟩ ∧
        ∀ k ∈ (dedupFold fuzzy pairs s).out.map exactKey,
          k ∈ (dedupFold fuzzy pairs s).seen)
  | [], s => fun h => h
  | r :: rest, s => fun h => by
    rw [dedupFold_cons]
    apply dedupFold_self fuzzy rest
    by_cases hk : exactKey r ∈ s.seen
    · simpa [dedupStep, hk] using h
    · by_cases hf : s.out.any (fun other => fuzzy (pyStrip r.question) other.question)
      · refine ⟨?_, ?_⟩
        · simpa [dedupStep, hk, hf] using h.1
        · intro k hkm
          have : k ∈ s.seen := h.2 k (by simpa [dedupStep, hk, hf] using hkm)
          simp [dedupStep, hk, hf, this]
      · have hout : ((dedupStep fuzzy s r).1).out = s.out ++ [r] := by
          simp [dedupStep, hk, hf]
        have hseen : ((dedupStep fuzzy s r).1).seen = exactKey r :: s.seen := by
          simp [dedupStep, hk, hf]
        constructor
        · rw [hout]
          have happ : dedupFold fuzzy (s.out ++ [r]) ⟨[], []⟩ =
              (dedupStep fuzzy (dedupFold fuzzy s.out ⟨[], []⟩) r).1 := by
            simp [dedupFold, List.foldl_append]
          rw [happ, h.1]
          have hk2 : exactKey r ∉ (s.out.map exactKey).reverse := by
            intro hmem
            exact hk (h.2 _ (List.mem_reverse.mp hmem))
          simp [dedupStep, hk2, hf]
        · intro k hkm
          rw [hout] at hkm
          rw [hseen]
          simp only [List.map_append, List.mem_append, List.map_cons,
            List.map_nil, List.mem_singleton, List.mem_cons] at hkm ⊢
          rcases hkm with hkm | hkm
          · exact Or.inr (h.2 k hkm)
          · simp at hkm
            exact Or.inl hkm

/-- C7: deduplicate is idempotent: running it on its own output changes
nothing, for every fuzzy comparison function and every input list. -/
theorem claim7_idempotent (fuzzy : Text → Text → Bool) (pairs : List QARecord) :
    deduplicate fuzzy (deduplicate fuzzy pairs) = deduplicate fuzzy pairs := by
  have h := dedupFold_self fuzzy pairs ⟨[], []⟩ ⟨rfl, by simp⟩
  show (dedupFold fuzzy (dedupFold fuzzy pairs ⟨[], []⟩).out ⟨[], []⟩).out = _
  rw [h.1]
  rfl

/-- C1 (counterexample): on this input the second record is dropped as a
fuzzy duplicate of the first, so it is never accepted; yet its exact key
is registered, and the third record, whose exact key equals only the key
of that fuzzy-dropped record, is dropped by the exact-duplicate check. -/
theorem claim1_counterexample :
    dedupReasons is_fuzzy_duplicate
        [⟨0, "a b".toList, "x".toList⟩, ⟨1, "b a".toList, "y".toList⟩,
          ⟨2, "b a".toList, "y".toList⟩] =
      [.accepted, .droppedFuzzy, .droppedExact] ∧
    deduplicate is_fuzzy_duplicate
        [⟨0, "a b".toList, "x".toList⟩, ⟨1, "b a".toList, "y".toList⟩,
          ⟨2, "b a".toList, "y".toList⟩] =
      [⟨0, "a b".toList, "x".toList⟩] ∧
    exactKey (⟨1, "b a".toList, "y".toList⟩ : QARecord) ∈
      (dedupFold is_fuzzy_duplicate
        [⟨0, "a b".toList, "x".toList⟩, ⟨1, "b a".toList, "y".toList⟩,
          ⟨2, "b a".toList, "y".toList⟩] ⟨[], []⟩).seen ∧
    exactKey (⟨2, "b a".toList, "y".toList⟩ : QARecord) =
      exactKey (⟨1, "b a".toList, "y".toList⟩ : QARecord) ∧
    exactKey (⟨2, "b a".toList, "y".toList⟩ : QARecord) ≠
      exactKey (⟨0, "a b".toList, "x".toList⟩ : QARecord) := by
  refine ⟨?_, ?_, ?_, ?_, ?_⟩ <;> decide

/-- C1 (amended): the exact key of a record is registered as soon as the
record passes the exact-duplicate check, whether or not the record is then
accepted: after a run, seen_exact holds the keys of all records, and any
record preceded by one with an equal exact key, accepted or not, is
dropped by the exact-duplicate check. -/
theorem claim1_amended (fuzzy : Text → Text → Bool) (pairs : List QARecord)
    (d : QARecord) (i j : Nat) (hij : i < j) (hj : j < pairs.length)
    (hkey : exactKey (pairs.getD i d) = exactKey (pairs.getD j d)) :
    (∀ k, k ∈ (dedupFold fuzzy pairs ⟨[], []⟩).seen ↔ k ∈ pairs.map exactKey) ∧
    (dedupReasons fuzzy pairs).getD j .accepted = .droppedExact := by
  constructor
  · intro k
    rw [dedupFold_seen_mem]
    simp
  · show (dedupReasonsGo fuzzy ⟨[], []⟩ pairs).getD j .accepted = .droppedExact
    rw [dedupReasonsGo_exact_iff fuzzy d pairs ⟨[], []⟩ j hj]
    exact Or.inr ⟨i, hij, hkey⟩

theorem claim1_amended_witness :
    (dedupReasons is_fuzzy_duplicate
        [⟨0, "a b".toList, "x".toList⟩, ⟨1, "b a".toList, "y".toList⟩,
          ⟨2, "b a".toList, "y".toList⟩]).getD 2 .accepted = .droppedExact :=
  (claim1_amended is_fuzzy_duplicate
    [⟨0, "a b".toList, "x".toList⟩, ⟨1, "b a".toList, "y".toList⟩,
      ⟨2, "b a".toList, "y".toList⟩]
    ⟨0, [], []⟩ 1 2 (by decide) (by decide) (by decide)).2

/-- C6 (counterexample): the second record is the earliest and only record
with its exact key, yet deduplicate drops it, because its question is a
fuzzy duplicate of the already accepted first question. -/
theorem claim6_counterexample :
    deduplicate is_fuzzy_duplicate
        [⟨0, "a b".toList, "x".toList⟩, ⟨1, "b a".toList, "y".toList⟩] =
      [⟨0, "a b".toList, "x".toList⟩] ∧
    exactKey (⟨1, "b a".toList, "y".toList⟩ : QARecord) ≠
      exactKey (⟨0, "a b".toList, "x".toList⟩ : QARecord) ∧
    (⟨1, "b a".toList, "y".toList⟩ : QARecord) ∉
      deduplicate is_fuzzy_duplicate
        [⟨0, "a b".toList, "x".toList⟩, ⟨1, "b a".toList, "y".toList⟩] := by
  refine ⟨?_, ?_, ?_⟩ <;> decide

/-- C6 (amended): the earliest record of each exact-key group is never
dropped by the exact-duplicate check; it can only be dropped as a fuzzy
duplicate of an earlier accepted question, and whenever its loop body
accepts it, it appears in the output. -/
theorem claim6_amended (fuzzy : Text → Text → Bool) (pairs : List QARecord)
    (d : QARecord) (j : Nat) (hj : j < pairs.length)
    (hfirst : ∀ i, i < j → exactKey (pairs.getD i d) ≠ exactKey (pairs.getD j d)) :
    (dedupReasons fuzzy pairs).getD j .accepted ≠ .droppedExact ∧
    ((dedupReasons fuzzy pairs).getD j .accepted = .accepted →
      pairs.getD j d ∈ deduplicate fuzzy pairs) := by
  constructor
  · intro h
    rw [dedupReasons,
      dedupReasonsGo_exact_iff fuzzy d pairs ⟨[], []⟩ j hj] at h
    rcases h with h | ⟨i, hi, hkey⟩
    · simp at h
    · exact hfirst i hi hkey
  · exact dedupReasonsGo_accepted_mem fuzzy d pairs ⟨[], []⟩ j hj

theorem claim6_amended_witness :
    (dedupReasons is_fuzzy_duplicate
        [⟨0, "a b".toList, "x".toList⟩,
          ⟨1, "b a".toList, "y".toList⟩]).getD 1 .accepted ≠ .droppedExact :=
  (claim6_amended is_fuzzy_duplicate
    [⟨0, "a b".toList, "x".toList⟩, ⟨1, "b a".toList, "y".toList⟩]
    ⟨0, [], []⟩ 1 (by decide) (by decide)).1

/-- The fuzzy generator never raises when every accepted record has its
Question field. -/
theorem anyFuzzyDict_total (fuzzy : Text → Text → Bool) (q : Text) :
    ∀ (out : List QADict), (∀ o ∈ out, o.question.isSome) →
      ∃ b, anyFuzzyDict fuzzy q out = .ok b
  | [] => fun _ => ⟨false, rfl⟩
  | o :: os => fun h => by
    obtain ⟨oq, hoq⟩ := Option.isSome_iff_exists.mp (h o (by simp))
    by_cases hf : fuzzy q oq
    · exact ⟨true, by simp [anyFuzzyDict, hoq, getField, hf, Except.instMonad, Except.bind]⟩
    · obtain ⟨b, hb⟩ := anyFuzzyDict_total fuzzy q os (fun x hx => h x (by simp [hx]))
      exact ⟨b, by simp [anyFuzzyDict, hoq, getField, hf, hb, Except.instMonad, Except.bind]⟩

/-- The dict-level loop never raises when every record has both fields. -/
theorem dedupDictGo_total (fuzzy : Text → Text → Bool) :
    ∀ (pairs : List QADict) (seen : List (Text × Text)) (out : List QADict),
      (∀ r ∈ pairs, r.question.isSome ∧ r.answer.isSome) →
      (∀ o ∈ out, o.question.isSome) →
      ∃ res, dedupDictGo fuzzy seen out pairs = .ok res
  | [], _, out => fun _ _ => ⟨out, rfl⟩
  | r :: rest, seen, out => fun hp ho => by
    obtain ⟨qr, hqr⟩ := Option.isSome_iff_exists.mp (hp r (by simp)).1
    obtain ⟨ar, har⟩ := Option.isSome_iff_exists.mp (hp r (by simp)).2
    have hrest : ∀ x ∈ rest, x.question.isSome ∧ x.answer.isSome :=
      fun x hx => hp x (by simp [hx])
    by_cases hk : (pyLower (pyStrip qr), pyLower (pyStrip ar)) ∈ seen
    · obtain ⟨res, hres⟩ := dedupDictGo_total fuzzy rest seen out hrest ho
      exact ⟨res, by simp [dedupDictGo, hqr, har, getField, hk, hres, Except.instMonad, Except.bind]⟩
    · obtain ⟨b, hb⟩ := anyFuzzyDict_total fuzzy (pyStrip qr) out ho
      cases b with
      | true =>
        obtain ⟨res, hres⟩ := dedupDictGo_total fuzzy rest
          ((pyLower (pyStrip qr), pyLower (pyStrip ar)) :: seen) out hrest ho
        exact ⟨res, by simp [dedupDictGo, hqr, har, getField, hk, hb, hres, Except.instMonad, Except.bind]⟩
      | false =>
        have ho2 : ∀ o ∈ out ++ [r], o.question.isSome := by
          intro o hmem
          rcases List.mem_append.mp hmem with hmem | hmem
          · exact ho o hmem
          · simp only [List.mem_singleton] at hmem
            subst hmem
            simp [hqr]
        obtain ⟨res, hres⟩ := dedupDictGo_total fuzzy rest
          ((pyLower (pyStrip qr), pyLower (pyStrip ar)) :: seen) (out ++ [r])
          hrest ho2
        exact ⟨res, by simp [dedupDictGo, hqr, har, getField, hk, hb, hres, Except.instMonad, Except.bind]⟩

/-- C8 (counterexample): a record whose Question field is absent makes
deduplicate raise a KeyError (modelled as the error outcome); the missing
field is not treated as an empty string. -/
theorem claim8_counterexample :
    deduplicateDict is_fuzzy_duplicate [⟨0, none, some "x".toList⟩] =
      Except.error () := rfl

/-- C8 (amended): deduplicate is total over records that carry both the
Question and the Answer field; a record missing either raises a KeyError
instead of defaulting the field to an empty string. -/
theorem claim8_amended (fuzzy : Text → Text → Bool) (pairs : List QADict)
    (h : ∀ r ∈ pairs, r.question.isSome ∧ r.answer.isSome) :
    deduplicateDict fuzzy pairs ≠ Except.error () := by
  obtain ⟨res, hres⟩ := dedupDictGo_total fuzzy pairs [] [] h (by simp)
  show dedupDictGo fuzzy [] [] pairs ≠ Except.error ()
  rw [hres]
  intro hcontra
  exact Except.noConfusion hcontra

theorem claim8_amended_witness :
    deduplicateDict is_fuzzy_duplicate
        [⟨0, some "q1".toList, some "a1".toList⟩,
          ⟨1, some "q2".toList, some "a2".toList⟩] ≠
      Except.error () :=
  claim8_amended is_fuzzy_duplicate
    [⟨0, some "q1".toList, some "a1".toList⟩,
      ⟨1, some "q2".toList, some "a2".toList⟩] (by decide)

/-! ## Oracle-calling components

generate_questions_groq of src/generate_QA.py (lines 24-99) and
safe_evaluate_chunk of src/chunks_eval2.py (lines 89-114).  The HTTP layer
and json.loads are external: an environment function gives the outcome of
each attempt, and a parser oracle models json.loads (none means the text
does not parse).  Sleeping for backoff is real time and is not part of the
model; only the control flow over attempts is. -/

/-- Outcome of one requests.post call: an exception, or a response with a
status code and a content string. -/
inductive GroqResp
  | exc
  | ok (status : Nat) (content : Text)
deriving DecidableEq

/-- Loop body of generate_questions_groq over the remaining attempts.
attempt is the index of the current attempt (0-based, as range(retries));
on 200 the content is parsed, a failed parse tries appending a closing
bracket when the stripped content ends with a closing brace, and on a
still-failing parse the function returns the empty list at once; non-200
statuses and exceptions move to to the next attempt; exhausted attempts
raise RuntimeError. -/
def groqGo (jparse : Text → Option (List (Text × Text)))
    (env : Nat → GroqResp) (attempt : Nat) :
    Nat → Except Unit (List (Text × Text))
  | 0 => .error ()
  | left + 1 =>
    match env attempt with
    | .exc => groqGo jparse env (attempt + 1) left
    | .ok status content =>
      if status = 200 then
        match jparse content with
        | some v => .ok v
        | none =>
          if (pyStrip content).getLastD ' ' = '\x7d' then
            match jparse (pyStrip content ++ [']']) with
            | some v => .ok v
            | none => .ok []
          else .ok []
      else groqGo jparse env (attempt + 1) left

/-- generate_questions_groq of src/generate_QA.py. -/
def generate_questions_groq (jparse : Text → Option (List (Text × Text)))
    (env : Nat → GroqResp) (retries : Nat) :
    Except Unit (List (Text × Text)) :=
  groqGo jparse env 0 retries

/-- Outcome of one attempt of safe_evaluate_chunk: evaluate_chunk may
raise (error), otherwise its response string is parsed by json.loads;
both failure kinds are caught by the same except clause. -/
def safeAttempt (env : Nat → Except Unit Text) (jparse : Text → Option Nat)
    (attempt : Nat) : Option Nat :=
  match env attempt with
  | .error _ => none
  | .ok s => jparse s

/-- Loop of safe_evaluate_chunk: attempt counts from 1 as in
range(1, retries + 1); a failed attempt re-raises when it is the last,
otherwise sleeps and retries; when retries is 0 the loop never runs and
the function returns None. -/
def safeGo (env : Nat → Except Unit Text) (jparse : Text → Option Nat)
    (retries : Nat) (attempt : Nat) : Nat → Except Unit (Option Nat)
  | 0 => .ok none
  | left + 1 =>
    match safeAttempt env jparse attempt with
    | some m => .ok (some m)
    | none =>
      if attempt = retries then .error ()
      else safeGo env jparse retries (attempt + 1) left

/-- safe_evaluate_chunk of src/chunks_eval2.py; the parsed metrics value
is abstracted to a number. -/
def safe_evaluate_chunk (env : Nat → Except Unit Text)
    (jparse : Text → Option Nat) (retries : Nat) : Except Unit (Option Nat) :=
  safeGo env jparse retries 1 retries

/-! ## Claims about the chunker -/

/-- C2 (counterexample): with max_words 3, two two-word sentences are
accumulated into one chunk of four words: the chunk exceeds max_words
although no single sentence alone does. -/
theorem claim2_counterexample :
    split_section_into_chunks "H".toList ["a b".toList, "c d".toList] 3 =
      [("H".toList, "a b c d".toList)] ∧
    wc "a b c d".toList = 4 ∧
    wc "a b".toList ≤ 3 ∧ wc "c d".toList ≤ 3 := by
  refine ⟨?_, ?_, ?_, ?_⟩ <;> decide

/-- C2 (amended): a chunk can exceed max_words even when no single
sentence does, but only through its final sentence: every emitted chunk
is a sentence group whose word count before the final sentence is at most
max_words - 1, so its word count is at most max_words - 1 plus the word
count of its final sentence (and no sentence is ever split). -/
theorem claim2_amended (heading : Text) (sentences : List Text)
    (maxWords : Nat) (c : Text × Text)
    (hc : c ∈ split_section_into_chunks heading sentences maxWords) :
    ∃ gs last, gs ++ [last] ∈ chunkGroups maxWords sentences ∧
      c = (heading, joinSpace (gs ++ [last])) ∧
      (gs.map wc).sum ≤ maxWords - 1 ∧
      wc c.2 ≤ (maxWords - 1) + wc last := by
  rw [split_section_into_chunks_eq_groups] at hc
  obtain ⟨g, hg, rfl⟩ := List.mem_map.mp hc
  obtain ⟨gs, last, rfl, hbound⟩ :=
    chunkGroupsGo_bound maxWords sentences [] 0 rfl (by omega) g hg
  refine ⟨gs, last, hg, rfl, hbound, ?_⟩
  show wc (joinSpace (gs ++ [last])) ≤ _
  rw [wc_joinSpace]
  simp only [List.map_append, List.sum_append, List.map_cons, List.map_nil,
    List.sum_cons, List.sum_nil]
  omega

theorem claim2_amended_witness :
    ∃ gs last, gs ++ [last] ∈ chunkGroups 3 ["a b".toList, "c d".toList] ∧
      (("H".toList, "a b c d".toList) : Text × Text) =
        ("H".toList, joinSpace (gs ++ [last])) ∧
      (gs.map wc).sum ≤ 3 - 1 ∧
      wc (("H".toList, "a b c d".toList) : Text × Text).2 ≤ (3 - 1) + wc last :=
  claim2_amended "H".toList ["a b".toList, "c d".toList] 3
    ("H".toList, "a b c d".toList) (by decide)

/-- C3: for a section whose sentence word counts sum beyond max_words,
every emitted chunk except possibly the last has word count at least
max_words at the moment of emission, and the chunk sentence groups
concatenate back to the exact original sentence sequence, the emitted
chunks being exactly those groups joined under the section heading. -/
theorem claim3_chunk_bounds (heading : Text) (sentences : List Text)
    (maxWords : Nat) (htotal : maxWords < (sentences.map wc).sum) :
    (∀ c ∈ (split_section_into_chunks heading sentences maxWords).dropLast,
      maxWords ≤ wc c.2) ∧
    (chunkGroups maxWords sentences).flatten = sentences ∧
    split_section_into_chunks heading sentences maxWords =
      (chunkGroups maxWords sentences).map (fun g => (heading, joinSpace g)) := by
  refine ⟨?_, chunkGroups_flatten maxWords sentences,
    split_section_into_chunks_eq_groups heading sentences maxWords⟩
  intro c hc
  rw [split_section_into_chunks_eq_groups, ← List.map_dropLast] at hc
  obtain ⟨g, hg, rfl⟩ := List.mem_map.mp hc
  show maxWords ≤ wc (joinSpace g)
  rw [wc_joinSpace]
  exact chunkGroupsGo_ge maxWords sentences [] 0 rfl g hg

theorem claim3_witness :
    2 < ((["A.".toList, "B.".toList, "C.".toList].map wc).sum) ∧
    ((∀ c ∈ (split_section_into_chunks "H".toList
        ["A.".toList, "B.".toList, "C.".toList] 2).dropLast, 2 ≤ wc c.2) ∧
      (chunkGroups 2 ["A.".toList, "B.".toList, "C.".toList]).flatten =
        ["A.".toList, "B.".toList, "C.".toList] ∧
      split_section_into_chunks "H".toList
          ["A.".toList, "B.".toList, "C.".toList] 2 =
        (chunkGroups 2 ["A.".toList, "B.".toList, "C.".toList]).map
          (fun g => ("H".toList, joinSpace g))) :=
  ⟨by decide, claim3_chunk_bounds "H".toList
    ["A.".toList, "B.".toList, "C.".toList] 2 (by decide)⟩

/-- C5 (counterexample): the fixed-window path does not skip a section
with empty body: split_by_sections emits a chunk whose text is empty. -/
theorem claim5_counterexample :
    split_by_sections "ignored".toList [("Overview Text".toList, [])] 300 =
      [("Overview Text".toList, [])] := by decide

/-- C5 (amended): the sentence-based path emits no chunk when the
tokenizer yields no sentences, as it does for an empty body; the
fixed-window path of split_by_sections instead emits exactly one chunk
with empty text for a section whose cleaned body is empty. -/
theorem claim5_amended (heading : Text) (maxWords : Nat) (pre b h2 : Text)
    (secs : List (Text × Text)) (hmem : (h2, b) ∈ secs)
    (hempty : clean_text b = []) :
    split_section_into_chunks heading [] maxWords = [] ∧
    (pyStrip h2, ([] : Text)) ∈ split_by_sections pre secs maxWords := by
  refine ⟨rfl, ?_⟩
  unfold split_by_sections
  rw [List.mem_flatMap]
  refine ⟨(h2, b), hmem, ?_⟩
  simp [hempty, pyWords, pyWordsGo, wc]

theorem claim5_amended_witness :
    split_section_into_chunks "H".toList [] 300 = [] ∧
    (pyStrip "T".toList, ([] : Text)) ∈
      split_by_sections "x".toList [("T".toList, [])] 300 :=
  claim5_amended "H".toList 300 "x".toList [] "T".toList
    [("T".toList, [])] (by decide) (by decide)

/-! ## Claims about the segmenters -/

/-- C4 (counterexample): when the heading regex finds zero matches,
re.split returns only the unmatched document text and the loop of
split_by_sections iterates over no (heading, body) pair: the non-empty
document yields no section at all, Generic or otherwise. -/
theorem claim4_counterexample :
    split_by_sections "charging stations need regular checks".toList [] 300 =
      [] ∧
    "charging stations need regular checks".toList ≠ ([] : Text) :=
  ⟨rfl, by decide⟩

/-- C4 (amended): the Generic fallback holds for split_pdf_with_nlp: with
zero matches the entire cleaned document is chunked as one section whose
every chunk carries the heading Generic; split_by_sections however emits
nothing at all when the heading regex finds zero matches, dropping the
document. -/
theorem claim4_amended (tok : Text → List Text) (raw pre : Text)
    (maxWords : Nat) :
    split_pdf_with_nlp tok raw [] maxWords =
      split_section_into_chunks "Generic".toList (tok (clean_text raw))
        maxWords ∧
    (∀ c ∈ split_pdf_with_nlp tok raw [] maxWords, c.1 = "Generic".toList) ∧
    split_by_sections pre [] maxWords = [] := by
  refine ⟨rfl, ?_, rfl⟩
  intro c hc
  exact split_section_heading _ _ _ c hc

/-- Well-formedness of a finditer result: every span has its start before
its end and consecutive matches do not overlap and appear left to
right. -/
def matchesOrdered : List ReMatch → Bool
  | [] => true
  | [m] => decide (m.mstart ≤ m.mend)
  | m :: m2 :: rest =>
    decide (m.mstart ≤ m.mend) && decide (m.mend ≤ m2.mstart) &&
      matchesOrdered (m2 :: rest)

/-- Texts agreeing from position p on agree from any later position on. -/
theorem drop_congr_of_drop (t t2 : Text) (p s : Nat) (hs : p ≤ s)
    (hagree : t.drop p = t2.drop p) : t.drop s = t2.drop s := by
  have h1 : t.drop s = (t.drop p).drop (s - p) := by
    rw [List.drop_drop]
    congr 1
    omega
  rw [h1, hagree, List.drop_drop]
  congr 1
  omega

/-- A slice taken beyond position p only depends on the text from p on. -/
theorem pySlice_congr (t t2 : Text) (p s e : Nat) (hs : p ≤ s)
    (hagree : t.drop p = t2.drop p) :
    pySlice s e t = pySlice s e t2 := by
  unfold pySlice
  rw [List.drop_take, List.drop_take, drop_congr_of_drop t t2 p s hs hagree]

/-- The matched sections depend only on the text from the end of the
first match on: everything before it is discarded. -/
theorem pdfSections_congr (t t2 : Text) (hlen : t.length = t2.length)
    (m0 : ReMatch) :
    ∀ (ms : List ReMatch), matchesOrdered (m0 :: ms) = true →
      t.drop m0.mend = t2.drop m0.mend →
      pdfSections t (m0 :: ms) = pdfSections t2 (m0 :: ms)
  | [] => by
    intro _ hagree
    unfold pdfSections
    rw [hlen, pySlice_congr t t2 m0.mend m0.mend t2.length le_rfl hagree]
  | m2 :: rest => by
    intro hord hagree
    simp only [matchesOrdered, Bool.and_eq_true, decide_eq_true_eq] at hord
    obtain ⟨⟨h1, h2⟩, h3⟩ := hord
    have hm2 : m0.mend ≤ m2.mend := by
      have : m2.mstart ≤ m2.mend := by
        cases rest with
        | nil => simpa [matchesOrdered] using h3
        | cons m3 rest2 =>
          simp only [matchesOrdered, Bool.and_eq_true, decide_eq_true_eq] at h3
          exact h3.1.1
      omega
    have hagree2 : t.drop m2.mend = t2.drop m2.mend :=
      drop_congr_of_drop t t2 m0.mend m2.mend hm2 hagree
    unfold pdfSections
    rw [pySlice_congr t t2 m0.mend m0.mend m2.mstart le_rfl hagree,
      pdfSections_congr t t2 hlen m2 rest h3 hagree2]

/-- The heading of every matched section is the stripped first capture group of
one of the matches. -/
theorem pdfSections_headings (t : Text) :
    ∀ (ms : List ReMatch), ∀ hb ∈ pdfSections t ms,
      hb.1 ∈ ms.map (fun m => pyStrip m.group1)
  | [] => by simp [pdfSections]
  | [m] => by simp [pdfSections]
  | m :: m2 :: rest => by
    intro hb hmem
    rcases List.mem_cons.mp hmem with h | h
    · subst h
      simp
    · have := pdfSections_headings t (m2 :: rest) hb h
      simp only [List.map_cons, List.mem_cons] at this ⊢
      tauto

/-- C10: both pattern-based segmenters discard all text preceding the
first heading match: split_by_sections never reads the piece before the
first captured heading, the matched sections of split_pdf_with_nlp (which
factors through pdfSections on the cleaned text) are unchanged when the
text before the end of the first match is replaced by any text of equal
length, and the heading of every emitted chunk is a captured heading -- no
leading sentinel section exists in these paths. -/
theorem claim10_discard (tok : Text → List Text) (maxWords : Nat)
    (pre pre2 raw : Text) (secs : List (Text × Text))
    (t t2 : Text) (m0 : ReMatch) (ms : List ReMatch)
    (hord : matchesOrdered (m0 :: ms) = true)
    (hlen : t.length = t2.length)
    (hagree : t.drop m0.mend = t2.drop m0.mend) :
    split_by_sections pre secs maxWords =
      split_by_sections pre2 secs maxWords ∧
    split_pdf_matched tok t (m0 :: ms) maxWords =
      split_pdf_matched tok t2 (m0 :: ms) maxWords ∧
    split_pdf_with_nlp tok raw (m0 :: ms) maxWords =
      split_pdf_matched tok (clean_text raw) (m0 :: ms) maxWords ∧
    (∀ c ∈ split_pdf_matched tok t (m0 :: ms) maxWords,
      c.1 ∈ (m0 :: ms).map (fun m => pyStrip m.group1)) := by
  refine ⟨rfl, ?_, rfl, ?_⟩
  · show (pdfSections t (m0 :: ms)).flatMap _ =
      (pdfSections t2 (m0 :: ms)).flatMap _
    rw [pdfSections_congr t t2 hlen m0 ms hord hagree]
  · intro c hc
    obtain ⟨hb, hhb, hcin⟩ := List.mem_flatMap.mp hc
    rw [split_section_heading hb.1 (tok hb.2) maxWords c hcin]
    exact pdfSections_headings t (m0 :: ms) hb hhb

/-! ## Claims about the retry logic -/

/-- Parser oracle for the C9 scenario: only the content good parses; in
particular the content bad is malformed and, not ending in a closing
brace, is beyond the bracket repair. -/
def jparse0 : Text → Option (List (Text × Text)) := fun s =>
  if s = "good".toList then some [("q".toList, "a".toList)] else none

/-- Response environment for the C9 scenario: the first attempt gets a
well-formed HTTP response with malformed content, every later attempt
would get parseable content. -/
def env0 : Nat → GroqResp := fun attempt =>
  if attempt = 0 then .ok 200 "bad".toList else .ok 200 "good".toList

/-- C9 (counterexample): a malformed 200 response on the first attempt
makes generate_questions_groq return the empty list immediately, although
two attempts remain and the next response would parse: a malformed
response on attempt k does not cause attempt k+1 there. -/
theorem claim9_counterexample :
    generate_questions_groq jparse0 env0 3 = .ok [] ∧
    jparse0 "good".toList = some [("q".toList, "a".toList)] ∧
    env0 1 = .ok 200 "good".toList := by
  refine ⟨rfl, ?_, ?_⟩ <;> decide

/-- C9 (amended): safe_evaluate_chunk retries every failed attempt,
evaluation exception and malformed response alike, while attempts remain,
and generate_questions_groq retries request exceptions and non-200
responses and raises once its attempts are exhausted; but a 200 response
with malformed content that survives the bracket repair makes
generate_questions_groq return the empty list at once, whatever attempts
remain. -/
theorem claim9_amended (envS : Nat → Except Unit Text)
    (jpS : Text → Option Nat) (retries attempt left : Nat)
    (jpG : Text → Option (List (Text × Text))) (envG : Nat → GroqResp)
    (content : Text) (status : Nat)
    (hfail : safeAttempt envS jpS attempt = none)
    (hlast : attempt ≠ retries)
    (hbadstatus : status ≠ 200)
    (hbad : jpG content = none)
    (hfix : jpG (pyStrip content ++ [']']) = none) :
    safeGo envS jpS retries attempt (left + 1) =
      safeGo envS jpS retries (attempt + 1) left ∧
    (envG attempt = .exc →
      groqGo jpG envG attempt (left + 1) = groqGo jpG envG (attempt + 1) left) ∧
    (envG attempt = .ok status content →
      groqGo jpG envG attempt (left + 1) = groqGo jpG envG (attempt + 1) left) ∧
    (envG attempt = .ok 200 content →
      groqGo jpG envG attempt (left + 1) = .ok []) ∧
    groqGo jpG envG attempt 0 = .error () := by
  refine ⟨?_, ?_, ?_, ?_, rfl⟩
  · simp [safeGo, hfail, hlast]
  · intro h
    simp [groqGo, h]
  · intro h
    simp [groqGo, h, hbadstatus]
  · intro h
    by_cases hbrace : (pyStrip content).getLastD ' ' = '\x7d' <;>
      simp [groqGo, h, hbad, hfix, hbrace]

theorem claim9_amended_witness :
    safeGo (fun _ => Except.error ()) (fun _ => none) 3 1 3 =
      safeGo (fun _ => Except.error ()) (fun _ => none) 3 2 2 :=
  (claim9_amended (fun _ => Except.error ()) (fun _ => none) 3 1 2 jparse0
    env0 "bad".toList 500 (by decide) (by decide) (by decide) (by decide)
    (by decide)).1

theorem claim10_witness :
    split_pdf_matched (fun b => [b]) "abcd".toList [⟨0, 2, "H".toList⟩] 1 =
      split_pdf_matched (fun b => [b]) "zzcd".toList [⟨0, 2, "H".toList⟩] 1 :=
  (claim10_discard (fun b => [b]) 1 "p".toList "q".toList "r".toList
    [("A".toList, "b".toList)] "abcd".toList "zzcd".toList
    ⟨0, 2, "H".toList⟩ [] (by decide) (by decide) (by decide)).2.1

end EvQa
